import Mathlib

/-!
Verification development for the EthicaDL backend (`app.py`): the in-memory
job registry, the progress-hook adapter, the output resolver and the job
runner.  Python dictionaries become Lean structures, Python strings become
`String`/`List Char`, filesystem state becomes an explicit list of entries
with modification times (timestamps as `Int`, byte counters and percentages
as `ℚ`).  Python truthiness of optional strings and numbers is modelled
explicitly.
-/

namespace EthicaDL

/-! ## Python-style helpers -/

/-- Truthiness of an optional string: `None` and `""` are falsy. -/
def truthyS : Option String → Bool
  | none => false
  | some s => s ≠ ""

/-- `a or b` on optional strings: returns `a` when truthy, else `b` unchanged. -/
def pyOrS (a b : Option String) : Option String :=
  if truthyS a then a else b

/-- `a or b or 0` on optional numbers (used for `total_bytes or total_bytes_estimate or 0`):
first truthy (nonzero) value, else `0`. -/
def pyOrN (a b : Option ℚ) : ℚ :=
  match a with
  | some x => if x ≠ 0 then x else
      match b with
      | some y => if y ≠ 0 then y else 0
      | none => 0
  | none =>
      match b with
      | some y => if y ≠ 0 then y else 0
      | none => 0

/-- Split a character list at the first occurrence of `c`:
returns the part before and, when found, `some` part after (c removed).
Models Python `s.split(c, 1)` / `c in s` / `s.find(c)`. -/
def breakAt (c : Char) : List Char → List Char × Option (List Char)
  | [] => ([], none)
  | x :: xs =>
    if x = c then ([], some xs)
    else
      let r := breakAt c xs
      (x :: r.1, r.2)

/-- Python `s.split(c)`: full split on a single character, keeping empty parts. -/
def splitChar (c : Char) : List Char → List (List Char)
  | [] => [[]]
  | x :: xs =>
    if x = c then [] :: splitChar c xs
    else
      match splitChar c xs with
      | [] => [[x]]
      | h :: t => (x :: h) :: t

/-- Boolean list-prefix test. -/
def isPrefixL : List Char → List Char → Bool
  | [], _ => true
  | _ :: _, [] => false
  | a :: as, b :: bs => a = b && isPrefixL as bs

/-- Python `needle in hay` on strings: substring containment. -/
def isSub (needle : List Char) : List Char → Bool
  | [] => isPrefixL needle []
  | c :: rest => isPrefixL needle (c :: rest) || isSub needle rest

/-- Python `s.strip()`: remove whitespace from both ends. -/
def pyStrip (s : String) : String :=
  String.mk (((s.data.dropWhile Char.isWhitespace).reverse.dropWhile
    Char.isWhitespace).reverse)

/-- Python `s.lower()` (ASCII). -/
def pyLower (s : String) : String :=
  String.mk (s.data.map Char.toLower)

/-! ## Filesystem model

The download directory is modelled as a list of entries (basename within
`downloads/` plus an mtime).  Full paths are the strings `"downloads/" ++ name`. -/

/-- One entry of the `downloads` directory. -/
structure FSEntry where
  name : String
  mtime : Int
  deriving DecidableEq, Repr

/-- `Path(p).exists()` against the modelled directory contents. -/
def pathExists (fs : List FSEntry) (p : String) : Bool :=
  fs.any (fun e => ("downloads/" ++ e.name : String) = p)

/-- Full path of a directory entry. -/
def entryPath (e : FSEntry) : String := "downloads/" ++ e.name

/-! ## `find_final_file`: the `[id]` glob scan

`DOWNLOAD_DIR.glob(f"*[{video_id}].*")` goes through `fnmatch.translate`,
where `[...]` is a character class (with `-` ranges and leading `!`
negation), not a literal bracket.  The pattern is `*` CLASS `.` `*`, so a
name matches iff some character of the name lies in the class built from
the characters of `video_id` and is immediately followed by a dot. -/

/-- Regex/fnmatch character-class body matching: `-` between two characters
is a range, a trailing `-` is literal. -/
def classBodyMatch : List Char → Char → Bool
  | [], _ => false
  | [a], c => a = c
  | [a, b], c => a = c || b = c
  | a :: '-' :: b :: rest, c => (a ≤ c && c ≤ b) || classBodyMatch rest c
  | a :: rest, c => a = c || classBodyMatch rest c

/-- fnmatch character class `[body]`, with leading `!` negation. -/
def classMatch (body : List Char) (c : Char) : Bool :=
  match body with
  | '!' :: rest => !(classBodyMatch rest c)
  | _ => classBodyMatch body c

/-- Does `name` match the glob pattern `*[vid].*`
(`.*CLASS\..*` after `fnmatch.translate`)? -/
def idGlobMatch (vid : List Char) : List Char → Bool
  | c1 :: c2 :: rest => (classMatch vid c1 && c2 = '.') || idGlobMatch vid (c2 :: rest)
  | _ => false

/-- Python `max(matches, key=mtime)`: first entry of maximal mtime. -/
def maxByMtime (h : FSEntry) (t : List FSEntry) : FSEntry :=
  t.foldl (fun acc e => if e.mtime > acc.mtime then e else acc) h

/-- `find_final_file(video_id)`: glob the download directory for
`*[{video_id}].*` and return the most recently modified match. -/
def find_final_file (fs : List FSEntry) (video_id : Option String) : Option String :=
  match video_id with
  | none => none
  | some vid =>
    if vid = "" then none
    else
      match fs.filter (fun e => idGlobMatch vid.data e.name.data) with
      | [] => none
      | m :: ms => some (entryPath (maxByMtime m ms))

/-- What the spec says the identifier-pattern scan matches: names containing
the literal substring `"[" ++ id ++ "]"`. -/
def specIdPatternMatch (vid : String) (name : String) : Bool :=
  isSub ("[" ++ vid ++ "]").data name.data

example : idGlobMatch "abc123".data "x3.mp4".data = true := by decide
example : idGlobMatch "abc123".data "Title [abc123].mp4".data = false := by decide
example : specIdPatternMatch "abc123" "Title [abc123].mp4" = true := by decide

/-! ## `Path.with_suffix`

pathlib: the suffix of a name is the part from the last dot, provided that
dot is neither the first nor the last character of the name; `with_suffix`
replaces it (or appends when there is none). -/

/-- Replace the pathlib suffix of a bare name. -/
def nameWithSuffix (name suf : List Char) : List Char :=
  match breakAt '.' name.reverse with
  | (_, none) => name ++ suf
  | (ext, some rstem) =>
    if ext = [] || rstem = [] then name ++ suf
    else rstem.reverse ++ suf

/-- `Path(p).with_suffix(suf)`: replace the suffix of the final path component. -/
def withSuffix (p suf : String) : String :=
  match breakAt '/' p.data.reverse with
  | (rname, none) => String.mk (nameWithSuffix rname.reverse suf.data)
  | (rname, some rdir) => String.mk (rdir.reverse ++ '/' :: nameWithSuffix rname.reverse suf.data)

example : withSuffix "downloads/a.webm" ".mp4" = "downloads/a.mp4" := by decide
example : withSuffix "downloads/a" ".mp4" = "downloads/a.mp4" := by decide

/-! ## Data model: info dicts, events, job records -/

/-- The slice of a yt-dlp info dict used by the backend
(`_filename` is the pre-postprocessing path field). -/
structure JInfo where
  id : Option String := none
  title : Option String := none
  ext : Option String := none
  filepath : Option String := none
  _filename : Option String := none
  deriving DecidableEq, Repr

/-- A progress-hook event dict `d`. -/
structure ProgressEvent where
  status : Option String := none
  info_dict : Option JInfo := none
  total_bytes : Option ℚ := none
  total_bytes_estimate : Option ℚ := none
  downloaded_bytes : Option ℚ := none
  eta : Option ℚ := none
  speed : Option ℚ := none
  filename : Option String := none
  deriving DecidableEq, Repr

/-- A postprocessor-hook event dict `d`. -/
structure PPEvent where
  status : Option String := none
  info_dict : Option JInfo := none
  filename : Option String := none
  deriving DecidableEq, Repr

/-- A job record of the in-memory store `jobs`. -/
structure JobRec where
  id : String
  state : String
  progress : Option ℚ
  eta : Option ℚ := none
  speed : Option ℚ := none
  ready : Bool
  file : Option String
  error : Option String
  video_id : Option String
  filename : Option String
  pp_filename : Option String
  start_ts : Int
  merge_ext : String
  deriving DecidableEq, Repr

/-- The record inserted by `api_download` (state `queued`). -/
def initJob (job_id : String) (ts : Int) : JobRec :=
  { id := job_id, state := "queued", progress := some 0, ready := false,
    file := none, error := none, video_id := none, filename := none,
    pp_filename := none, start_ts := ts, merge_ext := "" }

/-! ## `resolve_final_file` -/

/-- Prefix a name with the download directory. -/
def dlPath (s : String) : String := "downloads/" ++ s

/-- Stable insertion into a list sorted by descending mtime
(equal mtimes keep earlier elements first, as Python's stable sort does). -/
def insertDesc (e : FSEntry) : List FSEntry → List FSEntry
  | [] => [e]
  | x :: xs => if x.mtime < e.mtime then e :: x :: xs else x :: insertDesc e xs

/-- `sorted(entries, key=mtime, reverse=True)`: stable descending sort. -/
def sortDescMtime (fs : List FSEntry) : List FSEntry :=
  fs.foldl (fun acc e => insertDesc e acc) []

/-- `resolve_final_file(info, job, selection, audio_fmt, merge)` over the
modelled directory contents `fs`. -/
def resolve_final_file (fs : List FSEntry) (info : JInfo) (job : JobRec)
    (selection audio_fmt merge : String) : Option String :=
  let video_id := pyOrS job.video_id info.id
  let start_ts := job.start_ts
  -- 1) By [id] pattern
  let idHit : Option String :=
    match find_final_file fs video_id with
    | some p => if pathExists fs p then some p else none
    | none => none
  match idHit with
  | some p => some p
  | none =>
    -- 2) From download hook filename (may be original before post-process)
    let hook_fn := pyOrS (pyOrS job.pp_filename job.filename) info._filename
    let candidates : List String :=
      match hook_fn with
      | some base =>
        if base ≠ "" then
          [base] ++
            (if selection = "10" then
              [withSuffix base ("." ++ audio_fmt)]
            else
              (if merge ≠ "" && merge ≠ "auto" then [withSuffix base ("." ++ merge)] else [])
                ++ [withSuffix base ".mp4", withSuffix base ".mkv"])
        else []
      | none => []
    -- 3) From title + id
    let title := pyStrip (info.title.getD "")
    let candidates := candidates ++
      (if title ≠ "" then
        let stem :=
          match video_id with
          | some v => if v ≠ "" then title ++ " [" ++ v ++ "]" else title
          | none => title
        if selection = "10" then [dlPath (stem ++ "." ++ audio_fmt)]
        else
          ((if merge ≠ "" && merge ≠ "auto" then merge else "") ::
              info.ext.getD "" :: ["mp4", "mkv", "webm"]).filterMap
            (fun e =>
              let e2 := pyLower (pyStrip e)
              if e2 ≠ "" then some (dlPath (stem ++ "." ++ e2)) else none)
      else [])
    -- Test candidates
    match candidates.find? (fun c => pathExists fs c) with
    | some c => some c
    | none =>
      -- 4) Fallback: newest entry modified at or after start_ts - 5
      match (sortDescMtime fs).find? (fun q => start_ts - 5 ≤ q.mtime) with
      | some q => some (entryPath q)
      | none => none

/-! ## Progress hooks

`round(x, 2)` is modelled over `ℚ` with Mathlib's `round`; the model differs
from Python's float banker's rounding only at exact half-ties, which no
property below depends on. -/

/-- `round(x, 2)`. -/
def round2 (x : ℚ) : ℚ := (round (x * 100) : ℚ) / 100

/-- The progress hook `hook(d)`, acting on a present job record.
(The real hook silently returns when the record is missing; the registry
wrapper below handles that case.) -/
def hook (d : ProgressEvent) (job : JobRec) : JobRec :=
  let info := d.info_dict.getD {}
  let total := pyOrN d.total_bytes d.total_bytes_estimate
  let downloaded := d.downloaded_bytes.getD 0
  let percent : Option ℚ :=
    if total ≠ 0 then some (round2 (downloaded / total * 100)) else none
  let job :=
    if truthyS info.id then { job with video_id := info.id } else job
  -- keep track of last known filename (before post-process)
  let job :=
    if truthyS d.filename then { job with filename := d.filename } else job
  if d.status = some "downloading" then
    { job with state := "downloading", progress := percent,
               eta := d.eta, speed := d.speed }
  else if d.status = some "finished" then
    { job with state := "processing", progress := some 100 }
  else job

/-- The postprocessor hook `pp_hook(d)`, acting on a present job record. -/
def pp_hook (d : PPEvent) (job : JobRec) : JobRec :=
  if d.status = some "finished" then
    let info := d.info_dict.getD {}
    let fp := pyOrS (pyOrS info.filepath info._filename) d.filename
    if truthyS fp then { job with pp_filename := fp } else job
  else job

/-! ## The runner's per-job trace

`run_download` performs, on the single record of its `job_id`:
the `starting` update, then (during `extract_info`) an arbitrary
interleaving of progress/postprocess hook calls, then either the
`merge_ext` update followed by the finished-finalisation, or — when the
fetcher raises — the error-finalisation.  Every mutation happens under
`jobs_lock`, so concurrent readers observe exactly the states of this
sequence. -/

/-- A hook invocation. -/
inductive HookEv where
  | prog (d : ProgressEvent)
  | pp (d : PPEvent)
  deriving DecidableEq, Repr

/-- How `run_download` ends: normally (with the resolver's result) or
with an exception message. -/
inductive FinishEv where
  | ok (final_path : Option String)
  | err (msg : String)
  deriving DecidableEq, Repr

/-- One atomic registry mutation of the runner or its hooks. -/
inductive JobEv where
  | starting
  | hookCall (e : HookEv)
  | setMerge (merge selection : String)
  | finOk (p : Option String)
  | finErr (msg : String)
  deriving DecidableEq, Repr

/-- Apply one mutation to the job record. -/
def jobStep (j : JobRec) : JobEv → JobRec
  | .starting => { j with state := "starting", progress := some 0 }
  | .hookCall (.prog d) => hook d j
  | .hookCall (.pp d) => pp_hook d j
  | .setMerge merge selection =>
      { j with merge_ext :=
          if merge ≠ "" && merge ≠ "auto" && selection ≠ "10" then merge else "" }
  | .finOk p =>
      { j with state := "finished", ready := p.isSome, file := p,
               error := if p.isSome then none else some "File not found after download" }
  | .finErr msg => { j with state := "error", error := some msg }

/-- The finalisation mutations: on normal fetcher return the `merge_ext`
update followed by the finished update, on an exception the error update. -/
def finTail (fin : FinishEv) (merge selection : String) : List JobEv :=
  match fin with
  | .ok p => [JobEv.setMerge merge selection, JobEv.finOk p]
  | .err m => [JobEv.finErr m]

/-- The ordered mutations of one `run_download` execution. -/
def runnerTrace (hooks : List HookEv) (fin : FinishEv) (merge selection : String) :
    List JobEv :=
  JobEv.starting :: hooks.map JobEv.hookCall ++ finTail fin merge selection

/-- All record snapshots of a job over its lifetime, in order: the `queued`
record inserted by `api_download` followed by the state after each atomic
mutation of the runner/hooks. -/
def runStates (job_id : String) (ts : Int) (hooks : List HookEv) (fin : FinishEv)
    (merge selection : String) : List JobRec :=
  List.scanl jobStep (initJob job_id ts) (runnerTrace hooks fin merge selection)

/-! ## Status and artifact-retrieval endpoints -/

/-- The snapshot returned by `api_status`. -/
structure StatusView where
  id : String
  state : String
  progress : Option ℚ
  eta : Option ℚ
  speed : Option ℚ
  ready : Bool
  error : Option String
  deriving DecidableEq, Repr

/-- `GET /api/status/<job_id>`: a read under the lock; `none` models 404. -/
def api_status (jobs : List (String × JobRec)) (job_id : String) :
    Option StatusView :=
  match jobs.lookup job_id with
  | none => none
  | some j =>
    some { id := j.id, state := j.state, progress := j.progress,
           eta := j.eta, speed := j.speed, ready := j.ready, error := j.error }

/-- Result of `/api/file/<job_id>`: 404, 409, 410, or serving the path. -/
inductive ApiFileResult where
  | notFound
  | notReady
  | gone
  | sendPath (p : String)
  deriving DecidableEq, Repr

/-- `GET|HEAD /api/file/<job_id>` over the registry and the directory
contents; returns the response together with the (unchanged) registry. -/
def api_file (jobs : List (String × JobRec)) (fs : List FSEntry)
    (job_id : String) : ApiFileResult × List (String × JobRec) :=
  match jobs.lookup job_id with
  | none => (.notFound, jobs)
  | some job =>
    match job.file with
    | none => (.notReady, jobs)
    | some path =>
      if !job.ready || path = "" then (.notReady, jobs)
      else if !pathExists fs path then (.gone, jobs)
      else (.sendPath path, jobs)

/-! ## `urllib.parse` model

The pieces of `urlparse`/`parse_qs` that `normalize_youtube_url` relies on,
following CPython (3.10+): tab/CR/LF removal, scheme recognition, netloc
splitting with the bracket `ValueError` check (modelled as `none`),
fragment and query splitting, params splitting on the last path segment,
`&`-only query-pair splitting and `unquote_plus` percent decoding
(non-ASCII multi-byte escapes decode byte-per-byte here; no property below
involves them). -/

/-- Characters allowed in a URL scheme. -/
def isSchemeChar (c : Char) : Bool :=
  c.isAlpha || c.isDigit || c = '+' || c = '-' || c = '.'

/-- Strip a character from both ends (Python `s.strip("/")`). -/
def stripChar (c : Char) (l : List Char) : List Char :=
  ((l.dropWhile (fun x => x = c)).reverse.dropWhile (fun x => x = c)).reverse

/-- Drop the params part (`;...`) of the last path segment, as `urlparse` does. -/
def splitparams (path : List Char) : List Char :=
  match breakAt '/' path.reverse with
  | (_, none) => (breakAt ';' path).1
  | (rlast, some rpre) => rpre.reverse ++ '/' :: (breakAt ';' rlast.reverse).1

/-- The fields of a parse result that the backend reads. -/
structure UrlParts where
  netloc : List Char
  path : List Char
  query : List Char
  deriving DecidableEq, Repr

/-- `urlparse(u)` restricted to netloc/path/query; `none` models the
`ValueError` raised for unbalanced brackets in the netloc. -/
def urlparsePy (url0 : List Char) : Option UrlParts :=
  let url1 := url0.filter (fun c => c ≠ '\t' && c ≠ '\r' && c ≠ '\n')
  let rest :=
    match breakAt ':' url1 with
    | (b :: bs, some after) =>
      if b.isAlpha && (b :: bs).all isSchemeChar then after else url1
    | _ => url1
  let netloc :=
    if isPrefixL "//".data rest then
      (rest.drop 2).takeWhile (fun c => c ≠ '/' && c ≠ '?' && c ≠ '#')
    else []
  let rest2 :=
    if isPrefixL "//".data rest then
      (rest.drop 2).dropWhile (fun c => c ≠ '/' && c ≠ '?' && c ≠ '#')
    else rest
  if (netloc.contains '[' && !netloc.contains ']')
      || (netloc.contains ']' && !netloc.contains '[') then none
  else
    let pq := (breakAt '#' rest2).1
    let path := (breakAt '?' pq).1
    let query :=
      match breakAt '?' pq with
      | (_, some q) => q
      | (_, none) => []
    some { netloc := netloc, path := splitparams path, query := query }

/-- `s.replace('+', ' ')`, the first half of `unquote_plus`. -/
def plusToSpace (l : List Char) : List Char :=
  l.map (fun c => if c = '+' then ' ' else c)

/-- Hexadecimal digit value (by character code: 0-9, a-f, A-F). -/
def hexVal? (c : Char) : Option Nat :=
  let n := c.toNat
  if 48 ≤ n ∧ n ≤ 57 then some (n - 48)
  else if 97 ≤ n ∧ n ≤ 102 then some (n - 87)
  else if 65 ≤ n ∧ n ≤ 70 then some (n - 55)
  else none

/-- Percent decoding (`unquote`); invalid escapes pass through literally. -/
def unquote : List Char → List Char
  | [] => []
  | [c] => if c = '%' then ['%'] else [c]
  | [c, a] => if c = '%' then '%' :: unquote [a] else c :: unquote [a]
  | c :: a :: b :: rest =>
    if c = '%' then
      match hexVal? a, hexVal? b with
      | some x, some y => Char.ofNat (16 * x + y) :: unquote rest
      | _, _ => '%' :: unquote (a :: b :: rest)
    else c :: unquote (a :: b :: rest)

/-- `unquote_plus`. -/
def unquote_plus (l : List Char) : List Char := unquote (plusToSpace l)

/-- `parse_qsl(query)` with default settings: split on `&`, skip empty
fields, fields without `=` and blank values, decode names and values. -/
def parse_qs_pairs (q : List Char) : List (List Char × List Char) :=
  (splitChar '&' q).filterMap (fun field =>
    if field = [] then none
    else
      match breakAt '=' field with
      | (_, none) => none
      | (n, some v) =>
        if v = [] then none else some (unquote_plus n, unquote_plus v))

/-- `qs["v"][0]` when `"v" in qs and qs["v"]` (first `v` value, if any). -/
def qsV (q : List Char) : Option (List Char) :=
  ((parse_qs_pairs q).find? (fun pr => pr.1 = "v".data)).map (fun pr => pr.2)

/-! ## `normalize_youtube_url` -/

/-- The canonical watch URL built by the f-string
`f"https://www.youtube.com/watch?v={vid}"`. -/
def watchUrl (vid : List Char) : String :=
  String.mk ("https://www.youtube.com/watch?v=".data ++ vid)

/-- `normalize_youtube_url(u)`: convert youtu.be and shorts URLs to the
standard `watch?v=` form when possible; the `try/except` returns the
input unchanged when parsing raises. -/
def normalize_youtube_url (u : String) : String :=
  match urlparsePy u.data with
  | none => u
  | some p =>
    let host := p.netloc.map Char.toLower
    let path := p.path
    let r1 : Option String :=
      if isSub "youtu.be".data host then
        let vid := (stripChar '/' path).takeWhile (fun c => c ≠ '/')
        if vid ≠ [] then some (watchUrl vid) else none
      else none
    match r1 with
    | some s => s
    | none =>
      if isSub "youtube.com".data host then
        let r2 : Option String :=
          if isPrefixL "/shorts/".data path then
            let parts := splitChar '/' (stripChar '/' path)
            let vid := (parts.drop 1).headD []
            if vid ≠ [] then some (watchUrl vid) else none
          else none
        match r2 with
        | some s => s
        | none =>
          if isPrefixL "/watch".data path then
            match qsV p.query with
            | some v => watchUrl v
            | none => u
          else u
      else u

example : normalize_youtube_url "https://youtu.be/abc" =
    "https://www.youtube.com/watch?v=abc" := by decide
example : normalize_youtube_url "https://www.youtube.com/shorts/xyz?feature=share" =
    "https://www.youtube.com/watch?v=xyz" := by decide
example : normalize_youtube_url "https://example.org/watch?v=abc" =
    "https://example.org/watch?v=abc" := by decide
example : normalize_youtube_url "https://www.youtube.com/watch?v=abc&t=10" =
    "https://www.youtube.com/watch?v=abc" := by decide
example : normalize_youtube_url "https://youtu.be/a&b=c" =
    "https://www.youtube.com/watch?v=a&b=c" := by decide
example : normalize_youtube_url "https://www.youtube.com/watch?v=a&b=c" =
    "https://www.youtube.com/watch?v=a" := by decide

/-! ## Helper lemmas -/

theorem pyOrS_pos {a : Option String} (h : truthyS a = true) (b : Option String) :
    pyOrS a b = a := by
  simp [pyOrS, h]

/-! ## C1: the identifier-pattern scan -/

/-- C1: refuted (code bug).  The claim says the first resolver step globs for
entries whose name contains the literal substring `"[<id>]"`.  But in glob
syntax `[abc123]` is a character class, so `*[abc123].*` requires a character
of the id-set immediately before a dot.  The conventional output name
`Title [abc123].mp4` has `]` before the dot and is missed entirely, while
`x3.mp4`, which contains no bracketed id, matches; the function's own
docstring ("find the final file by [id] pattern") states the literal intent. -/
theorem find_final_file_misses_bracketed_name :
    find_final_file [⟨"Title [abc123].mp4", 1⟩] (some "abc123") = none ∧
    specIdPatternMatch "abc123" "Title [abc123].mp4" = true ∧
    find_final_file [⟨"x3.mp4", 1⟩] (some "abc123") = some "downloads/x3.mp4" ∧
    specIdPatternMatch "abc123" "x3.mp4" = false := by
  decide

/-! ## C2: cascade ordering -/

/-- C2: the identifier-pattern scan strictly precedes the hint-derived
candidates: whenever the job has a post-process hint and step 1 finds an
existing match, the resolver returns that match. -/
theorem resolve_id_scan_precedes_hints (fs : List FSEntry) (info : JInfo)
    (job : JobRec) (selection audio_fmt merge : String) (p : String)
    (_hpp : truthyS job.pp_filename = true)
    (hfind : find_final_file fs (pyOrS job.video_id info.id) = some p)
    (hex : pathExists fs p = true) :
    resolve_final_file fs info job selection audio_fmt merge = some p := by
  unfold resolve_final_file
  simp [hfind, hex]

/-- Witness for C2 at a concrete registry/filesystem state. -/
theorem resolve_id_scan_precedes_hints_witness :
    resolve_final_file [⟨"x3.mp4", 5⟩] {}
      { initJob "j" 0 with
          video_id := some "abc123"
          pp_filename := some "downloads/zzz.webm" } "4" "m4a" "mp4"
      = some "downloads/x3.mp4" :=
  resolve_id_scan_precedes_hints _ _ _ _ _ _ _ (by decide) (by decide) (by decide)

/-! ## C7: hint-derived candidates -/

/-- C7: refuted.  The claim says a `postprocess_filename` batch is tested and
then, on failure, a batch derived from `observed_filename` is tested.  In the
code `hook_fn = job.get("pp_filename") or job.get("filename") or
info.get("_filename")` selects a single hint, and only that hint produces
candidates.  Here the post-process hint's candidates are all absent while the
observed filename exists on disk, yet resolution returns nothing (the
temporal fallback also fails because the file predates the job). -/
theorem resolve_single_hint_cex :
    resolve_final_file [⟨"b.webm", 0⟩] {}
      { initJob "j" 100 with
          state := "processing"
          pp_filename := some "downloads/a.webm"
          filename := some "downloads/b.webm" } "4" "m4a" "auto"
      = none ∧
    pathExists [⟨"b.webm", 0⟩] "downloads/b.webm" = true := by
  decide

/-- C7 amended: step 2 builds its batch from a single hint — the first truthy
one among `pp_filename`, `filename` and the info dict's `_filename` — so when
a post-process hint is present the observed filename is ignored entirely:
the resolver's result does not depend on it. -/
theorem resolve_pp_shadows_observed (fs : List FSEntry) (info : JInfo)
    (job : JobRec) (selection audio_fmt merge : String) (f : Option String)
    (hpp : truthyS job.pp_filename = true) :
    resolve_final_file fs info { job with filename := f } selection audio_fmt merge =
      resolve_final_file fs info job selection audio_fmt merge := by
  unfold resolve_final_file
  simp [pyOrS_pos hpp]

/-- Witness for C7's amended claim. -/
theorem resolve_pp_shadows_observed_witness :
    resolve_final_file [⟨"b.webm", 0⟩] {}
      { { initJob "j" 100 with pp_filename := some "downloads/a.webm" } with
          filename := some "downloads/b.webm" } "4" "m4a" "auto" =
    resolve_final_file [⟨"b.webm", 0⟩] {}
      { initJob "j" 100 with pp_filename := some "downloads/a.webm" } "4" "m4a" "auto" :=
  resolve_pp_shadows_observed _ _ _ _ _ _ _ (by decide)

/-! ## C8: artifact retrieval signals -/

/-- C8: confirmed.  `GET /api/file/<id>`: unknown id yields the not-found
signal (404), a job that is not ready yields the conflict signal (409), a
ready job whose resolved path has disappeared from disk yields the distinct
gone signal (410), and in every case the registry is returned unchanged. -/
theorem api_file_signals (jobs : List (String × JobRec)) (fs : List FSEntry)
    (job_id : String) :
    (jobs.lookup job_id = none → api_file jobs fs job_id = (.notFound, jobs)) ∧
    (∀ j, jobs.lookup job_id = some j → j.ready = false →
      api_file jobs fs job_id = (.notReady, jobs)) ∧
    (∀ j p, jobs.lookup job_id = some j → j.ready = true → j.file = some p →
      p ≠ "" → pathExists fs p = false →
      api_file jobs fs job_id = (.gone, jobs)) := by
  refine ⟨fun h => ?_, fun j hj hr => ?_, fun j p hj hr hf hp hex => ?_⟩
  · simp [api_file, h]
  · cases hf : j.file <;> simp [api_file, hj, hf, hr]
  · simp [api_file, hj, hf, hr, hp, hex]

/-- Witness for C8: the three signals at concrete registry states. -/
theorem api_file_signals_witness :
    api_file [] [] "nope" = (.notFound, []) ∧
    api_file [("a", initJob "a" 0)] [] "a" = (.notReady, [("a", initJob "a" 0)]) ∧
    api_file [("b", { initJob "b" 0 with
        state := "finished"
        ready := true
        file := some "downloads/x.mp4" })] [] "b"
      = (.gone, [("b", { initJob "b" 0 with
          state := "finished"
          ready := true
          file := some "downloads/x.mp4" })]) :=
  ⟨(api_file_signals [] [] "nope").1 (by decide),
   (api_file_signals [("a", initJob "a" 0)] [] "a").2.1 (initJob "a" 0)
     (by decide) (by decide),
   (api_file_signals [("b", { initJob "b" 0 with
        state := "finished"
        ready := true
        file := some "downloads/x.mp4" })] [] "b").2.2
     { initJob "b" 0 with
        state := "finished"
        ready := true
        file := some "downloads/x.mp4" } "downloads/x.mp4"
     (by decide) (by decide) (by decide) (by decide) (by decide)⟩

/-! ## C9: `external_id` capture -/

/-- C9: refuted.  The claim says `external_id` is set only when unset and
never changed afterwards; the hook assigns it unconditionally whenever the
event's info block carries a truthy id, so a later event with a different id
overwrites it. -/
theorem hook_video_id_overwrite_cex :
    (hook { info_dict := some { id := some "a" } } (initJob "j" 0)).video_id
        = some "a" ∧
    (hook { info_dict := some { id := some "b" } }
        (hook { info_dict := some { id := some "a" } } (initJob "j" 0))).video_id
        = some "b" ∧
    ("b" : String) ≠ "a" := by
  decide

/-- C9 amended: the hook records the event's resource identifier whenever a
truthy one is present — last writer wins — and leaves `video_id` untouched
only when the event carries no truthy identifier. -/
theorem hook_video_id_last_writer (d : ProgressEvent) (j : JobRec) :
    (∀ i, (d.info_dict.getD {}).id = some i → i ≠ "" →
      (hook d j).video_id = some i) ∧
    (truthyS (d.info_dict.getD {}).id = false →
      (hook d j).video_id = j.video_id) := by
  constructor
  · intro i hi hne
    have ht : truthyS (some i) = true := by simp [truthyS, hne]
    unfold hook
    simp only [hi, ht, if_true]
    split_ifs <;> rfl
  · intro h
    unfold hook
    simp only [h, Bool.false_eq_true, if_false]
    split_ifs <;> rfl

/-- Witness for C9's amended claim. -/
theorem hook_video_id_last_writer_witness :
    (hook { info_dict := some { id := some "b" } }
      { initJob "j" 0 with video_id := some "a" }).video_id = some "b" ∧
    (hook { status := some "downloading" }
      { initJob "j" 0 with video_id := some "a" }).video_id = some "a" :=
  ⟨(hook_video_id_last_writer _ _).1 "b" (by decide) (by decide),
   (hook_video_id_last_writer _ _).2 (by decide)⟩

/-! ## Trace lemmas shared by the state-machine and invariant claims -/

/-- Position of a state in the forward order of §4.4
(`finished` and `error` are both terminal). -/
def stateRank : String → Nat
  | "queued" => 0
  | "starting" => 1
  | "downloading" => 2
  | "processing" => 3
  | "finished" => 4
  | "error" => 4
  | _ => 0

/-- States a record can be in while `extract_info` is still running. -/
def hookPhase (s : String) : Prop :=
  s = "starting" ∨ s = "downloading" ∨ s = "processing"

theorem scanl_head? {α β : Type} (f : β → α → β) (b : β) (l : List α) :
    (List.scanl f b l).head? = some b := by
  cases l <;> rfl

theorem hook_state_cases (d : ProgressEvent) (j : JobRec) :
    (hook d j).state = "downloading" ∨ (hook d j).state = "processing" ∨
      (hook d j).state = j.state := by
  unfold hook; split_ifs <;> simp [apply_ite JobRec.state]

theorem hook_preserves (d : ProgressEvent) (j : JobRec) :
    (hook d j).ready = j.ready ∧ (hook d j).file = j.file ∧
      (hook d j).error = j.error := by
  unfold hook
  split_ifs <;> refine ⟨?_, ?_, ?_⟩ <;>
    simp [apply_ite JobRec.ready, apply_ite JobRec.file, apply_ite JobRec.error]

theorem pp_hook_preserves (d : PPEvent) (j : JobRec) :
    (pp_hook d j).state = j.state ∧ (pp_hook d j).ready = j.ready ∧
      (pp_hook d j).file = j.file ∧ (pp_hook d j).error = j.error := by
  unfold pp_hook
  split_ifs <;> refine ⟨?_, ?_, ?_, ?_⟩ <;>
    simp [apply_ite JobRec.state, apply_ite JobRec.ready, apply_ite JobRec.file,
      apply_ite JobRec.error]

theorem stateRank_hookPhase_le (s : String) (h : hookPhase s) : stateRank s ≤ 3 := by
  rcases h with h | h | h <;> subst h <;> decide

/-! ## C4: state-machine monotonicity -/

/-- The amended per-step property: the state's rank never decreases, except
for the `processing → downloading` step a later download phase triggers. -/
def rankStep (s s' : JobRec) : Prop :=
  stateRank s.state ≤ stateRank s'.state ∨
    (s.state = "processing" ∧ s'.state = "downloading")

theorem rankStep_hookCall (j : JobRec) (e : HookEv) (hj : hookPhase j.state) :
    rankStep j (jobStep j (.hookCall e)) ∧
      hookPhase (jobStep j (.hookCall e)).state := by
  cases e with
  | pp d =>
    have hs := (pp_hook_preserves d j).1
    constructor
    · left; exact le_of_eq (by rw [show (jobStep j (.hookCall (.pp d))) = pp_hook d j from rfl, hs])
    · rw [show (jobStep j (.hookCall (.pp d))) = pp_hook d j from rfl, hs]; exact hj
  | prog d =>
    have hs := hook_state_cases d j
    rw [show (jobStep j (.hookCall (.prog d))) = hook d j from rfl]
    rcases hs with h | h | h
    · refine ⟨?_, by rw [h]; exact Or.inr (Or.inl rfl)⟩
      rcases hj with hq | hq | hq
      · left; rw [h, hq]; all_goals decide
      · left; rw [h, hq]
      · exact Or.inr ⟨hq, h⟩
    · refine ⟨?_, by rw [h]; exact Or.inr (Or.inr rfl)⟩
      left; rw [h]
      exact le_trans (stateRank_hookPhase_le _ hj) (by decide)
    · exact ⟨Or.inl (le_of_eq (by rw [h])), by rw [h]; exact hj⟩

theorem rankStep_trace (hooks : List HookEv) (fin : FinishEv)
    (merge selection : String) (j : JobRec) (hj : hookPhase j.state) :
    List.Chain' rankStep
      (List.scanl jobStep j (hooks.map JobEv.hookCall ++ finTail fin merge selection)) := by
  induction hooks generalizing j with
  | nil =>
    cases fin with
    | ok p =>
      simp only [List.map_nil, List.nil_append, finTail, List.scanl,
        List.chain'_cons, List.chain'_singleton, and_true]
      constructor
      · left; exact le_of_eq rfl
      · left
        exact le_trans (stateRank_hookPhase_le _ hj)
          (show (3 : ℕ) ≤ stateRank "finished" by decide)
    | err m =>
      simp only [List.map_nil, List.nil_append, finTail, List.scanl,
        List.chain'_cons, List.chain'_singleton, and_true]
      left
      exact le_trans (stateRank_hookPhase_le _ hj)
        (show (3 : ℕ) ≤ stateRank "error" by decide)
  | cons e t ih =>
    simp only [List.map_cons, List.cons_append, List.scanl]
    refine List.chain'_cons'.mpr ⟨?_, ih _ (rankStep_hookCall j e hj).2⟩
    intro y hy
    rw [scanl_head?] at hy
    cases hy
    exact (rankStep_hookCall j e hj).1

/-- C4 amended: along every runner trace the record's state only moves
forward along `queued → starting → downloading → processing →
finished/error`, with the single exception that a `downloading`-status
progress event may take a `processing` record back to `downloading`
(yt-dlp emits a fresh download phase after the first stream finishes). -/
theorem runStates_rank_monotone (job_id : String) (ts : Int) (hooks : List HookEv)
    (fin : FinishEv) (merge selection : String) :
    List.Chain' rankStep (runStates job_id ts hooks fin merge selection) := by
  unfold runStates runnerTrace
  simp only [List.scanl]
  refine List.chain'_cons'.mpr ⟨?_, ?_⟩
  · intro y hy
    rw [scanl_head?] at hy
    cases hy
    left
    exact show stateRank "queued" ≤ stateRank "starting" by decide
  · exact rankStep_trace hooks fin merge selection _ (Or.inl rfl)

/-- C4: refuted as stated.  A progress event with status `finished` puts the
record in `processing`; a subsequent progress event with status
`downloading` (a second download phase) puts it back in `downloading` — a
regression to an earlier state. -/
theorem state_regression_cex :
    ((runStates "j" 0 [.prog { status := some "finished" },
        .prog { status := some "downloading" }] (.ok none) "mp4" "4").get? 2).map
        JobRec.state = some "processing" ∧
    ((runStates "j" 0 [.prog { status := some "finished" },
        .prog { status := some "downloading" }] (.ok none) "mp4" "4").get? 3).map
        JobRec.state = some "downloading" ∧
    stateRank "downloading" < stateRank "processing" := by
  decide

/-! ## C5: the `error` field -/

/-- The amended per-step property for `error`: it becomes non-empty only on
entry to `error` or to `finished` with `ready=false` (resolution failure),
and once set it is carried forward unchanged. -/
def errStep (s s' : JobRec) : Prop :=
  (s.error = none → s'.error ≠ none →
    s'.state = "error" ∨ (s'.state = "finished" ∧ s'.ready = false)) ∧
  (∀ m, s.error = some m → s'.error = some m)

theorem errStep_of_preserved {s s' : JobRec} (he : s'.error = s.error) :
    errStep s s' :=
  ⟨fun h1 h2 => absurd (he.trans h1) h2, fun _ hm => he.trans hm⟩

theorem jobStep_hookCall_error (j : JobRec) (e : HookEv) :
    (jobStep j (.hookCall e)).error = j.error := by
  cases e with
  | prog d => exact (hook_preserves d j).2.2
  | pp d => exact (pp_hook_preserves d j).2.2.2

theorem errStep_finOk (j : JobRec) (p : Option String) (hj : j.error = none) :
    errStep j (jobStep j (.finOk p)) := by
  constructor
  · intro _ h2
    cases p with
    | some q => exact absurd rfl h2
    | none => exact Or.inr ⟨rfl, rfl⟩
  · intro m hm
    rw [hj] at hm
    exact absurd hm (by simp)

theorem errStep_finErr (j : JobRec) (m : String) (hj : j.error = none) :
    errStep j (jobStep j (.finErr m)) := by
  constructor
  · intro _ _; exact Or.inl rfl
  · intro k hk; rw [hj] at hk; exact absurd hk (by simp)

theorem errStep_trace (hooks : List HookEv) (fin : FinishEv)
    (merge selection : String) (j : JobRec) (hj : j.error = none) :
    List.Chain' errStep
      (List.scanl jobStep j (hooks.map JobEv.hookCall ++ finTail fin merge selection)) := by
  induction hooks generalizing j with
  | nil =>
    cases fin with
    | ok p =>
      simp only [List.map_nil, List.nil_append, finTail, List.scanl,
        List.chain'_cons, List.chain'_singleton, and_true]
      exact ⟨errStep_of_preserved rfl, errStep_finOk _ p hj⟩
    | err m =>
      simp only [List.map_nil, List.nil_append, finTail, List.scanl,
        List.chain'_cons, List.chain'_singleton, and_true]
      exact errStep_finErr _ m hj
  | cons e t ih =>
    simp only [List.map_cons, List.cons_append, List.scanl]
    refine List.chain'_cons'.mpr
      ⟨?_, ih _ ((jobStep_hookCall_error j e).trans hj)⟩
    intro y hy
    rw [scanl_head?] at hy
    cases hy
    exact errStep_of_preserved (jobStep_hookCall_error j e)

/-- C5 amended: along every runner trace, `error` becomes non-empty only
when the record enters the `error` state or enters `finished` with
`ready=false` (the resolution-failure case), and once set it is never
cleared or changed by a later step. -/
theorem runStates_error_discipline (job_id : String) (ts : Int)
    (hooks : List HookEv) (fin : FinishEv) (merge selection : String) :
    List.Chain' errStep (runStates job_id ts hooks fin merge selection) := by
  unfold runStates runnerTrace
  simp only [List.scanl]
  refine List.chain'_cons'.mpr ⟨?_, errStep_trace hooks fin merge selection _ rfl⟩
  intro y hy
  rw [scanl_head?] at hy
  cases hy
  exact errStep_of_preserved rfl

/-- C5: refuted as stated.  A run whose fetcher call succeeds but whose
resolver finds nothing finalises the record with state `finished` — not
`error` — and a non-empty error text, so the error field becomes non-empty
without the record ever entering the `error` state. -/
theorem error_set_on_finished_cex :
    ((runStates "j" 0 [] (.ok none) "mp4" "4").getLast?).map JobRec.error =
      some (some "File not found after download") ∧
    ((runStates "j" 0 [] (.ok none) "mp4" "4").getLast?).map JobRec.state =
      some "finished" ∧
    ("finished" : String) ≠ "error" := by
  decide

/-! ## C6: ready/file/error consistency of snapshots -/

theorem jobStep_hookCall_ready (j : JobRec) (e : HookEv) :
    (jobStep j (.hookCall e)).ready = j.ready := by
  cases e with
  | prog d => exact (hook_preserves d j).1
  | pp d => exact (pp_hook_preserves d j).2.1

theorem snapshot_aux (hooks : List HookEv) (fin : FinishEv)
    (merge selection : String) (j : JobRec) (hr : j.ready = false) :
    ∀ s ∈ List.scanl jobStep j (hooks.map JobEv.hookCall ++ finTail fin merge selection),
      s.ready = true → s.file ≠ none ∧ s.error = none := by
  induction hooks generalizing j with
  | nil =>
    cases fin with
    | ok p =>
      intro s hs
      simp only [List.map_nil, List.nil_append, finTail, List.scanl,
        List.mem_cons, List.mem_singleton, List.not_mem_nil, or_false] at hs
      rcases hs with h | h | h
      · subst h; intro hready; rw [hr] at hready; cases hready
      · subst h; intro hready
        rw [show (jobStep j (JobEv.setMerge merge selection)).ready = j.ready from rfl,
          hr] at hready
        cases hready
      · subst h
        intro hready
        cases p with
        | some q => exact ⟨fun hcon => Option.noConfusion hcon, rfl⟩
        | none => rw [show (jobStep (jobStep j (JobEv.setMerge merge selection))
            (JobEv.finOk none)).ready = false from rfl] at hready; cases hready
    | err m =>
      intro s hs
      simp only [List.map_nil, List.nil_append, finTail, List.scanl,
        List.mem_cons, List.mem_singleton, List.not_mem_nil, or_false] at hs
      rcases hs with h | h
      · subst h; intro hready; rw [hr] at hready; cases hready
      · subst h; intro hready
        rw [show (jobStep j (JobEv.finErr m)).ready = j.ready from rfl, hr] at hready
        cases hready
  | cons e t ih =>
    intro s hs
    simp only [List.map_cons, List.cons_append, List.scanl, List.mem_cons] at hs
    rcases hs with h | h
    · subst h; intro hready; rw [hr] at hready; cases hready
    · exact ih _ ((jobStep_hookCall_ready j e).trans hr) s h

/-- C6: confirmed.  Every mutation of a job record happens atomically under
`jobs_lock` and status readers take the same lock, so an observed snapshot
is exactly one of the states of the runner trace; in every such state,
`ready=true` implies the resolved `file` is present and implies the `error`
field is empty. -/
theorem runStates_snapshot_consistent (job_id : String) (ts : Int)
    (hooks : List HookEv) (fin : FinishEv) (merge selection : String) :
    ∀ s ∈ runStates job_id ts hooks fin merge selection,
      (s.ready = true → s.file ≠ none) ∧ (s.ready = true → s.error = none) := by
  intro s hs
  unfold runStates runnerTrace at hs
  simp only [List.scanl] at hs
  rcases List.mem_cons.mp hs with h | h
  · subst h
    refine ⟨fun hready => ?_, fun hready => ?_⟩ <;> simp [initJob] at hready
  · have hall := snapshot_aux hooks fin merge selection
      (jobStep (initJob job_id ts) JobEv.starting) rfl s h
    exact ⟨fun hready => (hall hready).1, fun hready => (hall hready).2⟩

/-- Witness for C6 at the final state of a successful concrete run. -/
theorem runStates_snapshot_consistent_witness :
    (jobStep (jobStep (jobStep (initJob "j" 0) JobEv.starting)
        (JobEv.setMerge "mp4" "4")) (JobEv.finOk (some "downloads/x.mp4"))).file
      ≠ none :=
  ((runStates_snapshot_consistent "j" 0 [] (.ok (some "downloads/x.mp4")) "mp4" "4"
      _ (List.mem_cons_of_mem _ (List.mem_cons_of_mem _ (List.mem_cons_of_mem _
        (List.mem_cons_self _ _))))).1 rfl)

/-! ## C3: progress range and monotonicity -/

/-- `total = d.get("total_bytes") or d.get("total_bytes_estimate") or 0`. -/
def eventTotal (d : ProgressEvent) : ℚ := pyOrN d.total_bytes d.total_bytes_estimate

/-- `downloaded = d.get("downloaded_bytes", 0)`. -/
def eventDownloaded (d : ProgressEvent) : ℚ := d.downloaded_bytes.getD 0

/-- The percentage the hook computes for a downloading event with
truthy total: `round(downloaded / total * 100, 2)`. -/
def eventPercent (d : ProgressEvent) : ℚ :=
  round2 (eventDownloaded d / eventTotal d * 100)

theorem hook_progress_downloading (d : ProgressEvent) (j : JobRec)
    (hst : d.status = some "downloading") (ht : eventTotal d ≠ 0) :
    (hook d j).progress = some (eventPercent d) := by
  have ht2 : pyOrN d.total_bytes d.total_bytes_estimate ≠ 0 := ht
  unfold hook
  rw [hst]
  split_ifs <;> simp_all [eventPercent, eventDownloaded, eventTotal]

theorem hook_progress_no_total (d : ProgressEvent) (j : JobRec)
    (hst : d.status = some "downloading") (ht : eventTotal d = 0) :
    (hook d j).progress = none := by
  have ht2 : pyOrN d.total_bytes d.total_bytes_estimate = 0 := ht
  unfold hook
  rw [hst]
  split_ifs <;> simp_all

theorem round_mono_q {x y : ℚ} (h : x ≤ y) : round x ≤ round y := by
  rw [round_eq, round_eq]
  exact Int.floor_le_floor (by linarith)

theorem round2_mono {x y : ℚ} (h : x ≤ y) : round2 x ≤ round2 y := by
  unfold round2
  have h1 := round_mono_q (mul_le_mul_of_nonneg_right h (by norm_num : (0:ℚ) ≤ 100))
  have h2 : ((round (x * 100) : ℤ) : ℚ) ≤ ((round (y * 100) : ℤ) : ℚ) := by
    exact_mod_cast h1
  linarith

theorem round2_nonneg {x : ℚ} (h : 0 ≤ x) : 0 ≤ round2 x := by
  unfold round2
  have h0 : round ((0 : ℚ)) ≤ round (x * 100) := round_mono_q (by nlinarith)
  rw [round_zero] at h0
  have h2 : (0 : ℚ) ≤ ((round (x * 100) : ℤ) : ℚ) := by exact_mod_cast h0
  linarith

theorem round2_le_100 {x : ℚ} (h : x ≤ 100) : round2 x ≤ 100 := by
  unfold round2
  have h1 : round (x * 100) ≤ round ((10000 : ℚ)) := round_mono_q (by nlinarith)
  have h2 : round ((10000 : ℚ)) = 10000 := by
    rw [show ((10000 : ℚ)) = ((10000 : ℕ) : ℚ) by norm_num]
    exact_mod_cast round_natCast (α := ℚ) 10000
  rw [h2] at h1
  have h3 : ((round (x * 100) : ℤ) : ℚ) ≤ 10000 := by exact_mod_cast h1
  linarith

theorem eventPercent_bounds (d : ProgressEvent) (h1 : 0 < eventTotal d)
    (h2 : 0 ≤ eventDownloaded d) (h3 : eventDownloaded d ≤ eventTotal d) :
    0 ≤ eventPercent d ∧ eventPercent d ≤ 100 := by
  have hr0 : 0 ≤ eventDownloaded d / eventTotal d := div_nonneg h2 (le_of_lt h1)
  have hr1 : eventDownloaded d / eventTotal d ≤ 1 := (div_le_one h1).mpr h3
  exact ⟨round2_nonneg (by nlinarith), round2_le_100 (by nlinarith)⟩

theorem scanl_hook_progress (j : JobRec) (evs : List ProgressEvent)
    (h : ∀ d ∈ evs, d.status = some "downloading" ∧ 0 < eventTotal d) :
    (List.scanl (fun a d => hook d a) j evs).map JobRec.progress
      = j.progress :: evs.map (fun d => some (eventPercent d)) := by
  induction evs generalizing j with
  | nil => rfl
  | cons d t ih =>
    simp only [List.scanl, List.map_cons]
    rw [ih (hook d j) (fun e he => h e (List.mem_cons_of_mem _ he)),
      hook_progress_downloading d j (h d (List.mem_cons_self _ _)).1
        (ne_of_gt (h d (List.mem_cons_self _ _)).2)]

/-- C3 amended: consider any job record and any sequence of progress events,
all with status `downloading` and positive byte total.  After each event the
record's progress is exactly `round(100 * downloaded / total, 2)`.  When
additionally every event satisfies `0 ≤ downloaded ≤ total`, each of those
values lies in `[0, 100]`; and when the ratios `downloaded / total` are
non-decreasing along the sequence (as for cumulative counters against a
fixed total), the progress values are non-decreasing.  (A downloading event
whose total is zero does not leave the previous progress in place: the hook
overwrites progress with None.) -/
theorem hook_progress_bounded_monotone (j : JobRec) (evs : List ProgressEvent)
    (hdl : ∀ d ∈ evs, d.status = some "downloading")
    (hpos : ∀ d ∈ evs, 0 < eventTotal d)
    (hle : ∀ d ∈ evs, 0 ≤ eventDownloaded d ∧ eventDownloaded d ≤ eventTotal d)
    (hmono : List.Chain' (fun d1 d2 =>
      eventDownloaded d1 / eventTotal d1 ≤ eventDownloaded d2 / eventTotal d2) evs) :
    ((List.scanl (fun a d => hook d a) j evs).map JobRec.progress
        = j.progress :: evs.map (fun d => some (eventPercent d)))
    ∧ (∀ d ∈ evs, 0 ≤ eventPercent d ∧ eventPercent d ≤ 100)
    ∧ List.Chain' (fun q1 q2 => q1 ≤ q2) (evs.map eventPercent)
    ∧ (∀ (d : ProgressEvent) (k : JobRec), d.status = some "downloading" →
        eventTotal d = 0 → (hook d k).progress = none) := by
  refine ⟨scanl_hook_progress j evs (fun d hd => ⟨hdl d hd, hpos d hd⟩),
    fun d hd => eventPercent_bounds d (hpos d hd) (hle d hd).1 (hle d hd).2,
    ?_, fun d k h1 h2 => hook_progress_no_total d k h1 h2⟩
  rw [List.chain'_map]
  exact hmono.imp (fun a b hab =>
    round2_mono (mul_le_mul_of_nonneg_right hab (by norm_num)))

/-- First event of the C3 counterexample: 2 bytes downloaded of a reported
total of 1. -/
def c3cex1 : ProgressEvent :=
  { status := some "downloading", total_bytes := some 1, downloaded_bytes := some 2 }

/-- Second event of the C3 counterexample: 1 byte downloaded of 1. -/
def c3cex2 : ProgressEvent :=
  { status := some "downloading", total_bytes := some 1, downloaded_bytes := some 1 }

theorem c3cex1_percent : eventPercent c3cex1 = 200 := by
  unfold eventPercent eventDownloaded eventTotal c3cex1 pyOrN round2
  norm_num

theorem c3cex2_percent : eventPercent c3cex2 = 100 := by
  unfold eventPercent eventDownloaded eventTotal c3cex2 pyOrN round2
  norm_num

/-- C3: refuted as stated.  A downloading event reporting more bytes than
its (estimated) total gives progress 200, outside [0,100]; a following
event with ratio 1 drops progress from 200 back to 100, so the sequence is
not monotone either.  (yt-dlp totals can be estimates, so `downloaded >
total` is reachable.) -/
theorem hook_progress_out_of_range_cex :
    (hook c3cex1 (jobStep (initJob "j" 0) JobEv.starting)).progress = some 200 ∧
    (hook c3cex2 (hook c3cex1 (jobStep (initJob "j" 0) JobEv.starting))).progress
      = some 100 ∧
    ¬ ((200 : ℚ) ≤ 100) ∧ (100 : ℚ) < 200 := by
  refine ⟨?_, ?_, by norm_num, by norm_num⟩
  · rw [hook_progress_downloading c3cex1 _ rfl (by norm_num [eventTotal, pyOrN, c3cex1]),
      c3cex1_percent]
  · rw [hook_progress_downloading c3cex2 _ rfl (by norm_num [eventTotal, pyOrN, c3cex2]),
      c3cex2_percent]

/-- First event of the C3 witness run: 50 of 100 bytes. -/
def c3w1 : ProgressEvent :=
  { status := some "downloading"
    total_bytes := some 100
    downloaded_bytes := some 50 }

/-- Second event of the C3 witness run: 75 of 100 bytes. -/
def c3w2 : ProgressEvent :=
  { status := some "downloading"
    total_bytes := some 100
    downloaded_bytes := some 75 }

/-- Witness for C3's amended claim on a concrete two-event run:
50 of 100 bytes, then 75 of 100 bytes. -/
theorem hook_progress_bounded_monotone_witness :
    (List.scanl (fun a d => hook d a) (jobStep (initJob "j" 0) JobEv.starting)
        [c3w1, c3w2]).map JobRec.progress
      = some 0 :: [some (eventPercent c3w1), some (eventPercent c3w2)] :=
  (hook_progress_bounded_monotone _ _
    (by intro d hd
        simp only [List.mem_cons, List.not_mem_nil, or_false] at hd
        rcases hd with h | h <;> subst h <;> rfl)
    (by intro d hd
        simp only [List.mem_cons, List.not_mem_nil, or_false] at hd
        rcases hd with h | h <;> subst h <;> norm_num [eventTotal, pyOrN, c3w1, c3w2])
    (by intro d hd
        simp only [List.mem_cons, List.not_mem_nil, or_false] at hd
        rcases hd with h | h <;> subst h <;> constructor <;>
          norm_num [eventTotal, eventDownloaded, pyOrN, c3w1, c3w2])
    (by
      refine List.chain'_cons.mpr ⟨?_, List.chain'_singleton _⟩
      norm_num [eventTotal, eventDownloaded, pyOrN, c3w1, c3w2])).1

/-! ## C10: properties of URL normalisation -/

/-- The lowercased host the function extracts from an input (empty when
parsing raises). -/
def hostOf (u : String) : List Char :=
  match urlparsePy u.data with
  | none => []
  | some p => p.netloc.map Char.toLower

/-- Characters of a video id that survive a round trip through
fragment-splitting, query-pair splitting and `unquote_plus`. -/
def goodChar (c : Char) : Bool :=
  c ≠ '&' && c ≠ '%' && c ≠ '+' && c ≠ '#' && c ≠ '\t' && c ≠ '\r' && c ≠ '\n'

theorem breakAt_not_mem (c : Char) (l : List Char) (h : ∀ x ∈ l, x ≠ c) :
    breakAt c l = (l, none) := by
  induction l with
  | nil => rfl
  | cons x xs ih =>
    have hx := h x (List.mem_cons_self _ _)
    simp [breakAt, hx, ih (fun y hy => h y (List.mem_cons_of_mem _ hy))]

theorem breakAt_append_found (c : Char) (l1 l2 : List Char) :
    ∀ b a, breakAt c l1 = (b, some a) →
      breakAt c (l1 ++ l2) = (b, some (a ++ l2)) := by
  induction l1 with
  | nil => intro b a h; simp [breakAt] at h
  | cons x xs ih =>
    intro b a h
    by_cases hx : x = c
    · rw [show breakAt c (x :: xs) = ([], some xs) from by simp [breakAt, hx]] at h
      injection h with h1 h2
      subst h1
      injection h2 with h3
      subst h3
      simp [breakAt, hx]
    · rcases hq : breakAt c xs with ⟨b1, o⟩
      simp only [breakAt, if_neg hx, hq, Prod.mk.injEq] at h
      obtain ⟨hb, ho⟩ := h
      cases o with
      | none => simp at ho
      | some a1 =>
        have hrec := ih b1 a1 hq
        subst hb
        have ho2 : a1 = a := by simpa using ho
        subst ho2
        simp [breakAt, hx, hrec, List.append_eq]

theorem splitChar_not_mem (c : Char) (l : List Char) (h : ∀ x ∈ l, x ≠ c) :
    splitChar c l = [l] := by
  induction l with
  | nil => rfl
  | cons x xs ih =>
    have hx := h x (List.mem_cons_self _ _)
    simp [splitChar, hx, ih (fun y hy => h y (List.mem_cons_of_mem _ hy))]

theorem unquote_clean : ∀ (l : List Char), (∀ x ∈ l, x ≠ '%') → unquote l = l
  | [], _ => rfl
  | [c], h => by
    have hc := h c (by simp)
    simp [unquote, hc]
  | [c, a], h => by
    have hc := h c (by simp)
    have ha : a ≠ '%' := h a (by simp)
    simp [unquote, hc, ha]
  | c :: a :: b :: rest, h => by
    have hc := h c (by simp)
    have ht := unquote_clean (a :: b :: rest)
      (fun x hx => h x (List.mem_cons_of_mem _ hx))
    simp [unquote, hc, ht]

theorem plusToSpace_clean (l : List Char) (h : ∀ x ∈ l, x ≠ '+') :
    plusToSpace l = l := by
  induction l with
  | nil => rfl
  | cons x xs ih =>
    have hx := h x (List.mem_cons_self _ _)
    simp [plusToSpace, hx] at ih ⊢
    exact ih (fun y hy => h y (List.mem_cons_of_mem _ hy))

theorem unquote_plus_clean (l : List Char)
    (h : ∀ x ∈ l, x ≠ '%' ∧ x ≠ '+') : unquote_plus l = l := by
  unfold unquote_plus
  rw [plusToSpace_clean l (fun x hx => (h x hx).2),
    unquote_clean l (fun x hx => (h x hx).1)]

theorem goodChar_spell (c : Char) (h : goodChar c = true) :
    c ≠ '&' ∧ c ≠ '%' ∧ c ≠ '+' ∧ c ≠ '#' ∧ c ≠ '\t' ∧ c ≠ '\r' ∧ c ≠ '\n' := by
  simp [goodChar] at h
  tauto

theorem urlparsePy_watch (vid : List Char)
    (hgood : ∀ c ∈ vid, goodChar c = true) :
    urlparsePy ("https://www.youtube.com/watch?v=".data ++ vid) =
      some { netloc := "www.youtube.com".data, path := "/watch".data,
             query := 'v' :: '=' :: vid } := by
  have hfil : List.filter
      (fun c => !decide (c = '\t') && !decide (c = '\r') && !decide (c = '\n'))
      vid = vid :=
    List.filter_eq_self.mpr (fun a ha => by
      obtain ⟨_, _, _, _, h5, h6, h7⟩ := goodChar_spell a (hgood a ha)
      simp [h5, h6, h7])
  have hv1 : breakAt '#' vid = (vid, none) :=
    breakAt_not_mem '#' vid (fun x hx => (goodChar_spell x (hgood x hx)).2.2.2.1)
  unfold urlparsePy
  simp [breakAt, isPrefixL, isSchemeChar, splitparams, hfil, hv1, List.filter]

theorem qsV_watch (vid : List Char) (hne : vid ≠ [])
    (hgood : ∀ c ∈ vid, goodChar c = true) :
    qsV ('v' :: '=' :: vid) = some vid := by
  have hup : unquote_plus vid = vid :=
    unquote_plus_clean vid (fun x hx =>
      ⟨(goodChar_spell x (hgood x hx)).2.1, (goodChar_spell x (hgood x hx)).2.2.1⟩)
  have hsplit : splitChar '&' ('v' :: '=' :: vid) = [('v' :: '=' :: vid)] :=
    splitChar_not_mem '&' _ (fun x hx => by
      simp only [List.mem_cons] at hx
      rcases hx with h | h | h
      · subst h; decide
      · subst h; decide
      · exact (goodChar_spell x (hgood x h)).1)
  have hv' : unquote_plus ['v'] = ['v'] := by decide
  unfold qsV parse_qs_pairs
  rw [hsplit]
  simp [breakAt, hne, hup, hv', show "v".data = ['v'] from rfl]

/-- Canonical watch URLs with a nonempty, clean id are fixed points of
normalisation. -/
theorem normalize_watchUrl_fixed (vid : List Char) (hne : vid ≠ [])
    (hgood : ∀ c ∈ vid, goodChar c = true) :
    normalize_youtube_url (watchUrl vid) = watchUrl vid := by
  unfold normalize_youtube_url
  rw [show (watchUrl vid).data = "https://www.youtube.com/watch?v=".data ++ vid from rfl]
  rw [urlparsePy_watch vid hgood]
  have hh1 : isSub "youtu.be".data (List.map Char.toLower "www.youtube.com".data)
      = false := by decide
  have hh2 : isSub "youtube.com".data (List.map Char.toLower "www.youtube.com".data)
      = true := by decide
  have hh3 : isPrefixL "/shorts/".data "/watch".data = false := by decide
  have hh4 : isPrefixL "/watch".data "/watch".data = true := by decide
  simp only [hh1, hh2, hh3, hh4, Bool.false_eq_true, if_false, if_true,
    qsV_watch vid hne hgood]

/-- Every execution path of the function returns either the input itself or
a canonical watch URL. -/
theorem normalize_total (u : String) :
    normalize_youtube_url u = u ∨
      ∃ vid, normalize_youtube_url u = watchUrl vid := by
  unfold normalize_youtube_url
  cases hp : urlparsePy u.data with
  | none => exact Or.inl rfl
  | some p =>
    dsimp only
    repeat' split
    all_goals
      first
        | exact Or.inl rfl
        | exact Or.inr ⟨_, rfl⟩
        | (rename_i pv heq
           split_ifs at heq
           first
             | exact Option.noConfusion heq
             | (injection heq with heq2; exact Or.inr ⟨_, heq2.symm⟩))

/-- When the lowercased netloc contains neither `youtu.be` nor
`youtube.com`, the input is returned unchanged. -/
theorem normalize_foreign_host (u : String)
    (h1 : isSub "youtu.be".data (hostOf u) = false)
    (h2 : isSub "youtube.com".data (hostOf u) = false) :
    normalize_youtube_url u = u := by
  unfold hostOf at h1 h2
  unfold normalize_youtube_url
  cases hp : urlparsePy u.data with
  | none => rfl
  | some p =>
    rw [hp] at h1 h2
    simp only [h1, h2, Bool.false_eq_true, if_false]

/-- C10 amended: normalisation (i) always returns a definite result — the
input unchanged or a canonical watch URL (the `try/except` turns parse
errors into the unchanged input); (ii) returns the input unchanged whenever
the lowercased host contains neither `youtu.be` nor `youtube.com`; and
(iii) is idempotent on every input whose resulting watch URL carries a
nonempty id free of `&`, `%`, `+`, `#` and whitespace-control characters —
in particular on all real video ids.  Unrestricted idempotence fails: query
re-parsing on the second pass can strip or decode parts of an id that
contains `&` or percent-escapes. -/
theorem normalize_total_foreign_id_clean_idempotent (u : String) :
    (normalize_youtube_url u = u ∨ ∃ vid, normalize_youtube_url u = watchUrl vid)
    ∧ (isSub "youtu.be".data (hostOf u) = false →
        isSub "youtube.com".data (hostOf u) = false →
        normalize_youtube_url u = u)
    ∧ (∀ vid, normalize_youtube_url u = watchUrl vid → vid ≠ [] →
        (∀ c ∈ vid, goodChar c = true) →
        normalize_youtube_url (normalize_youtube_url u) = normalize_youtube_url u) := by
  refine ⟨normalize_total u, normalize_foreign_host u, fun vid hv hne hgood => ?_⟩
  rw [hv, normalize_watchUrl_fixed vid hne hgood]

/-- Witness for C10: a foreign host is untouched, and normalisation of a
youtu.be link with a clean id is idempotent. -/
theorem normalize_c10_witness :
    normalize_youtube_url "https://example.org/watch?v=abc"
        = "https://example.org/watch?v=abc" ∧
    normalize_youtube_url (normalize_youtube_url "https://youtu.be/dQw4w9WgXcQ")
        = normalize_youtube_url "https://youtu.be/dQw4w9WgXcQ" :=
  ⟨(normalize_total_foreign_id_clean_idempotent "https://example.org/watch?v=abc").2.1
      (by decide) (by decide),
   (normalize_total_foreign_id_clean_idempotent "https://youtu.be/dQw4w9WgXcQ").2.2
      "dQw4w9WgXcQ".data (by decide) (by decide) (by decide)⟩

/-- C10: refuted as stated (idempotence fails).  An ampersand inside a
youtu.be path survives the first normalisation into the query string, where
the second normalisation re-parses it as a separator and drops everything
after it. -/
theorem normalize_not_idempotent_cex :
    normalize_youtube_url "https://youtu.be/a&b=c"
        = "https://www.youtube.com/watch?v=a&b=c" ∧
    normalize_youtube_url (normalize_youtube_url "https://youtu.be/a&b=c")
        = "https://www.youtube.com/watch?v=a" ∧
    normalize_youtube_url (normalize_youtube_url "https://youtu.be/a&b=c")
        ≠ normalize_youtube_url "https://youtu.be/a&b=c" := by
  refine ⟨by decide, by decide, by decide⟩

end EthicaDL
